import Mathlib

/-!
Verification development for the legal-document revision engine
(`f3.py` / `st_ui.py`): block model, article indexer, gazette merger,
amendment applier, structural diff engine, format-preserving copier and
reference annotator.  Text is modelled as `List Char`; the Python string
operations used by the code (strip, splitlines, split, replace, upper,
lower, isdigit, substring search) are embedded below.
-/

/-- Short name for the text representation used throughout: a Python
string modelled as its list of characters. -/
abbrev Str := List Char

/-- Characters treated as whitespace by Python `str.strip` (the ASCII
ones actually occurring in the documents: space, tab, newline, carriage
return, vertical tab, form feed). -/
def isPySpace (c : Char) : Bool :=
  c = ' ' || c = '\t' || c = '\n' || c = '\r' || c = '\x0B' || c = '\x0C'

/-- Python `str.strip()`: drop whitespace from both ends. -/
def pyStrip (s : Str) : Str :=
  (((s.dropWhile isPySpace).reverse).dropWhile isPySpace).reverse

/-- Python `str.lower` restricted to the characters the program
manipulates: ASCII letters plus the Serbian Latin letters appearing in
the fixed patterns. -/
def pyLower (c : Char) : Char :=
  if 'A' ≤ c && c ≤ 'Z' then Char.ofNat (c.toNat + 32)
  else if c = 'Č' then 'č'
  else if c = 'Ć' then 'ć'
  else if c = 'Š' then 'š'
  else if c = 'Ž' then 'ž'
  else if c = 'Đ' then 'đ'
  else c

/-- Python `str.upper` restricted to the same character set. -/
def pyUpper (c : Char) : Char :=
  if 'a' ≤ c && c ≤ 'z' then Char.ofNat (c.toNat - 32)
  else if c = 'č' then 'Č'
  else if c = 'ć' then 'Ć'
  else if c = 'š' then 'Š'
  else if c = 'ž' then 'Ž'
  else if c = 'đ' then 'Đ'
  else c

/-- Line boundary characters for Python `str.splitlines` (the common
single-character boundaries; the two-character boundary CR LF is handled
in `pySplitlines` itself). -/
def isLineBreakChar (c : Char) : Bool :=
  c = '\n' || c = '\r' || c = '\x0B' || c = '\x0C'

/-- Worker for `pySplitlines`: accumulates the current line; a boundary
at the very end of the string does not produce a trailing empty line. -/
def splitLinesGo (acc : Str) : Str → List Str
  | [] => [acc]
  | '\r' :: '\n' :: rest =>
      acc :: (if rest.isEmpty then [] else splitLinesGo [] rest)
  | c :: rest =>
      if isLineBreakChar c then acc :: (if rest.isEmpty then [] else splitLinesGo [] rest)
      else splitLinesGo (acc ++ [c]) rest

/-- Python `str.splitlines()`: split at line boundaries, no trailing
empty element, empty string gives the empty list. -/
def pySplitlines (s : Str) : List Str :=
  if s.isEmpty then [] else splitLinesGo [] s

/-- Case-insensitive character comparison used by the article-header
pattern (compiled with IGNORECASE). -/
def lowEq (c d : Char) : Bool := pyLower c = pyLower d

/-- Match of the anchored article-header pattern
ARTICLE_RE, case-insensitive, against the start of a string:
the word for Article, at least one whitespace, at least one digit
(trailing letters are optional and unconstrained). -/
def articleMatch (s : Str) : Bool :=
  match s with
  | c1 :: c2 :: c3 :: c4 :: rest =>
      lowEq c1 'č' && lowEq c2 'l' && lowEq c3 'a' && lowEq c4 'n' &&
      (match rest with
       | r :: _ =>
           isPySpace r &&
           (match rest.dropWhile isPySpace with
            | d :: _ => d.isDigit
            | [] => false)
       | [] => false)
  | _ => false

/-- Substring containment, Python `needle in hay`. -/
def containsSub (needle hay : Str) : Bool :=
  hay.tails.any (fun t => needle.isPrefixOf t)

/-- Block model: a document is an ordered list of paragraph and table
blocks, exactly what `iter_block_items` yields.  A paragraph carries its
text; a table carries its grid of cell texts (its content is irrelevant
to every text-level operation below, which is itself a property of the
code). -/
inductive Block where
  | para (text : Str)
  | table (cells : List (List Str))
deriving DecidableEq

/-- Stripped text of a block (tables have no `.text` in the code; they
are never consulted for text). -/
def blockStripText : Block → Str
  | Block.para t => pyStrip t
  | Block.table _ => []

/-- Whether a block is an article-header paragraph:
`isinstance(block, Paragraph) and ARTICLE_RE.match(block.text.strip())`. -/
def isHeaderBlock : Block → Bool
  | Block.para t => articleMatch (pyStrip t)
  | Block.table _ => false

/-- Python `text.replace(char, empty)` for the modification marker:
removes every star character. -/
def removeStars (s : Str) : Str := s.filter (fun c => c != '*')

/-- Part A amendment splice, text level (`process_part_a`, the block in
which a matched article span is rewritten): the descending removal loop
`for k in range(e - 1, s - 1, -1)` deleting paragraph k each time. -/
def removeDescLoop (s : Nat) : Nat → List Str → List Str
  | 0, doc => doc
  | e + 1, doc => if s ≤ e then removeDescLoop s e (doc.eraseIdx e) else doc

/-- Part A amendment splice: remove the old span, then each new line is
added with `add_paragraph`, which appends at the end of the document
body. -/
def partA_replace (doc : List Str) (s e : Nat) (newLines : List Str) : List Str :=
  removeDescLoop s e doc ++ newLines

/-- The fixed gazette literal matched by GAZETTE_RE before its capture
group. -/
def gazLit : Str := ( "\"Sl. glasnik RS\", br. ".toList)

/-- The conjunction token on which citation lists are split. -/
def sepIi : Str := ( " i ".toList)

/-- Worker for the lazy capture of GAZETTE_RE: having consumed at least
one captured character, scan for the first closing parenthesis; a bare
newline aborts (the dot of the pattern does not match newline). -/
def gazCaptureGo (acc : Str) : Str → Option Str
  | [] => none
  | c :: rest =>
      if c = ')' then some acc
      else if c = '\n' then none
      else gazCaptureGo (acc ++ [c]) rest

/-- Lazy capture for GAZETTE_RE after the literal: one or more non-newline
characters followed by a closing parenthesis, shortest match. -/
def gazCapture : Str → Option Str
  | [] => none
  | c :: rest => if c = '\n' then none else gazCaptureGo [c] rest

/-- Leftmost search of GAZETTE_RE over a string: returns the full matched
substring (group 0) and the captured citation list (group 1). -/
def gazetteSearchGo : Str → Option (Str × Str)
  | [] => none
  | c :: rest =>
      if gazLit.isPrefixOf (c :: rest) then
        match gazCapture ((c :: rest).drop gazLit.length) with
        | some g => some (gazLit ++ g ++ [ ')' ], g)
        | none => gazetteSearchGo rest
      else gazetteSearchGo rest

/-- Worker for Python `str.split(sep)` with a non-empty separator:
leftmost non-overlapping occurrences cut the string. -/
def splitSepGo (sep : Str) : Nat → Str → Str → List Str
  | 0, acc, s => [acc ++ s]
  | fuel + 1, acc, s =>
      match s with
      | [] => [acc]
      | c :: rest =>
          if sep.isPrefixOf (c :: rest) then
            acc :: splitSepGo sep fuel [] (rest.drop (sep.length - 1))
          else splitSepGo sep fuel (acc ++ [c]) rest

/-- Python `str.split(sep)` for a non-empty separator.  The fuel bounds
the recursion: every step consumes at least one character, so a fuel of
one more than the length is always enough. -/
def splitSep (sep s : Str) : List Str := splitSepGo sep (s.length + 1) [] s

/-- Python `str.replace(pat, rep)` for a non-empty pattern: every
leftmost non-overlapping occurrence is replaced. -/
def replaceAllGo (pat rep : Str) : Nat → Str → Str
  | 0, s => s
  | fuel + 1, s =>
      match s with
      | [] => []
      | c :: rest =>
          if pat.isPrefixOf (c :: rest) && !pat.isEmpty then
            rep ++ replaceAllGo pat rep fuel ((c :: rest).drop pat.length)
          else c :: replaceAllGo pat rep fuel rest

/-- Python `str.replace(pat, rep)` for a non-empty pattern; the fuel of
one more than the length is always enough because every step consumes at
least one character. -/
def replaceAll (pat rep s : Str) : Str := replaceAllGo pat rep (s.length + 1) s

/-- Citation tokens of a captured gazette list: split on the conjunction
token and strip each piece. -/
def tokensOf (g : Str) : List Str := (splitSep sepIi g).map pyStrip

/-- Python `str.isdigit` (ASCII digits): non-empty and all digits. -/
def isDigitsStr (s : Str) : Bool := !s.isEmpty && s.all (fun c => c.isDigit)

/-- Strict lexicographic order on strings by code point, the order Python
uses to compare strings. -/
def strLt : Str → Str → Bool
  | [], [] => false
  | [], _ :: _ => true
  | _ :: _, [] => false
  | a :: as, b :: bs => if a < b then true else if b < a then false else strLt as bs

/-- Non-strict lexicographic order on strings. -/
def strLe (a b : Str) : Bool := strLt a b || a == b

/-- The sort key of `merge_gazette_text`: the pair
(x is not purely numeric, x), compared lexicographically, so purely
numeric tokens come first and ties are broken by string order. -/
def tokLe (x y : Str) : Bool :=
  if isDigitsStr x = isDigitsStr y then strLe x y else isDigitsStr x

/-- Propositional form of `tokLe`, the relation the merged citation list
is sorted by. -/
def TokLE (x y : Str) : Prop := tokLe x y = true

instance : DecidableRel TokLE := fun x y => by
  unfold TokLE; infer_instance

/-- Merged citation tokens: the set union of the two token lists (Python
`set.union`, realised as deduplication of the concatenation), sorted by
the key of `merge_gazette_text`.  The sorted result is independent of
the set iteration order because the key determines the string. -/
def mergedRefs (g0 g1 : Str) : List Str :=
  List.insertionSort TokLE ((tokensOf g0 ++ tokensOf g1).dedup)

/-- Rendered replacement string of `merge_gazette_text`: an opening
parenthesis, the gazette literal, the merged tokens joined by the
conjunction token, and a closing parenthesis. -/
def renderGaz (refs : List Str) : Str :=
  [ '(' ] ++ gazLit ++ List.intercalate sepIi refs ++ [ ')' ]

/-- merge_gazette_text: if both texts contain a parseable citation,
replace the old matched substring by the rendering of the merged token
set inside the old text; otherwise return the old text unchanged. -/
def merge_gazette_text (oldT newT : Str) : Str :=
  match gazetteSearchGo oldT, gazetteSearchGo newT with
  | some (m0, g0), some (_, g1) =>
      replaceAll m0 (renderGaz (mergedRefs g0 g1)) oldT
  | _, _ => oldT

/-- Lines of a service response after validation preprocessing:
strip each raw line and keep only non-empty results
(the list comprehension in apply_amendment_text). -/
def cleanLines (content : Str) : List Str :=
  ((pySplitlines content).map pyStrip).filter (fun l => !l.isEmpty)

/-- Acceptance criterion of apply_amendment_text: at least two cleaned
lines and the first line contains the modification marker. -/
def linesOk (ls : List Str) : Bool :=
  match ls with
  | a :: _ :: _ => a.contains '*'
  | _ => false

/-- One attempt against the external text-transform service, modelled as
an oracle from attempt number to an optional raw response (none models a
raised service error).  A response is stripped, split into cleaned
lines, and accepted only when the criterion holds; a rejected response
raises and is mapped to none like a service error. -/
def svcAttempt (svc : Nat → Option Str) (a : Nat) : Option (List Str) :=
  match svc a with
  | none => none
  | some resp =>
      let ls := cleanLines (pyStrip resp)
      if linesOk ls then some ls else none

/-- apply_amendment_text: three total attempts with an unchanged
acceptance criterion; the first accepted response is returned, and if
all three attempts fail the original text split into lines is returned. -/
def apply_amendment_text (svc : Nat → Option Str) (old_text : Str) : List Str :=
  match svcAttempt svc 0 with
  | some ls => ls
  | none =>
      match svcAttempt svc 1 with
      | some ls => ls
      | none =>
          match svcAttempt svc 2 with
          | some ls => ls
          | none => pySplitlines old_text

/-- Python dict assignment `d[k] = v`: overwrite in place when the key
exists (keeping its position), else append the new binding. -/
def dictUpd (k : Str) (v : Nat × Nat) : List (Str × Nat × Nat) → List (Str × Nat × Nat)
  | [] => [(k, v)]
  | (k', v') :: rest => if k' = k then (k, v) :: rest else (k', v') :: dictUpd k v rest

/-- Keys of the article dictionary in insertion order. -/
def dictKeys (d : List (Str × Nat × Nat)) : List Str := d.map (fun e => e.1)

/-- Loop of extract_articles: i is the index of the next block; the open
article (header text and start index) is closed at each new header, and
the last open article is closed at the sequence length. -/
def eaRun : List Block → Nat → Option (Str × Nat) → List (Str × Nat × Nat) → List (Str × Nat × Nat)
  | [], _, none, acc => acc
  | [], i, some (c, s), acc => dictUpd c (s, i) acc
  | b :: bs, i, cur, acc =>
      if isHeaderBlock b then
        eaRun bs (i + 1) (some (blockStripText b, i))
          (match cur with
           | none => acc
           | some (c, s) => dictUpd c (s, i) acc)
      else eaRun bs (i + 1) cur acc

/-- extract_articles over the block sequence of a document. -/
def extract_articles (blocks : List Block) : List (Str × Nat × Nat) :=
  eaRun blocks 0 none []

/-- Modelled from the spec: the article span map described in the
ArticleIndexer contract, written directly from its words — each header
at index i closes the previous open span at i and opens a new one keyed
by the trimmed header text; the final open span closes at the sequence
length.  It is compared against extract_articles. -/
def spansGo : List Block → Nat → Option (Str × Nat) → List (Str × Nat × Nat)
  | [], _, none => []
  | [], i, some (c, s) => [(c, s, i)]
  | b :: bs, i, cur =>
      if isHeaderBlock b then
        (match cur with
         | none => []
         | some (c, s) => [(c, s, i)]) ++ spansGo bs (i + 1) (some (blockStripText b, i))
      else spansGo bs (i + 1) cur

/-- Article spans per the spec, from the start of the sequence. -/
def spansSpec (blocks : List Block) : List (Str × Nat × Nat) := spansGo blocks 0 none

/-- The statute marker searched for in upper-cased paragraph text. -/
def zakonLit : Str := ( "ZAKON O".toList)

/-- The gazette marker searched for in upper-cased paragraph text. -/
def glasnikLit : Str := ( "SL. GLASNIK RS".toList)

/-- The fixed literal citation returned when any of the three components
is missing. -/
def fallbackRef : Str :=
  ( "[ČLAN 23 STAV 2 ZAKONA O ELEKTRONSKOM FAKTURISANJU (\"SL. GLASNIK RS\", BR. 44/2021)]".toList)

/-- The bracketed citation composed from the three collected components. -/
def brack (a l g : Str) : Str :=
  [ '[' ] ++ a ++ [ ' ' ] ++ l ++ [ ' ' ] ++ g ++ [ ']' ]

/-- Loop of extract_amending_ref: every matching paragraph overwrites
the corresponding component, so the values kept are those of the last
matching paragraphs. -/
def earLoop : List Block → Str → Str → Str → Str × Str × Str
  | [], a, l, g => (a, l, g)
  | Block.table _ :: bs, a, l, g => earLoop bs a l g
  | Block.para t :: bs, a, l, g =>
      let s := pyStrip t
      let u := s.map pyUpper
      earLoop bs
        (if articleMatch s then u else a)
        (if containsSub zakonLit u then u else l)
        (if containsSub glasnikLit u then u else g)

/-- extract_amending_ref: compose the bracketed upper-cased citation
from the collected components when all three are non-empty, else return
the fixed literal. -/
def extract_amending_ref (blocks : List Block) : Str :=
  match earLoop blocks [] [] [] with
  | (a, l, g) =>
      if a ≠ [] ∧ l ≠ [] ∧ g ≠ [] then brack a l g else fallbackRef

/-- Modelled from the spec: the header component a single paragraph
contributes, upper-cased, used to express which paragraph the loop ends
up keeping. -/
def hitArt : Block → Option Str
  | Block.para t =>
      let s := pyStrip t
      if articleMatch s then some (s.map pyUpper) else none
  | Block.table _ => none

/-- Modelled from the spec: the statute-name component a single
paragraph contributes. -/
def hitLaw : Block → Option Str
  | Block.para t =>
      let u := (pyStrip t).map pyUpper
      if containsSub zakonLit u then some u else none
  | Block.table _ => none

/-- Modelled from the spec: the gazette component a single paragraph
contributes. -/
def hitGaz : Block → Option Str
  | Block.para t =>
      let u := (pyStrip t).map pyUpper
      if containsSub glasnikLit u then some u else none
  | Block.table _ => none

/-- Last block (in document order) contributing a component. -/
def lastHit (f : Block → Option Str) : List Block → Option Str
  | [] => none
  | b :: bs =>
      match lastHit f bs with
      | some r => some r
      | none => f b

/-- Run-level data copied by deep_copy_paragraph: text and run
formatting.  Point sizes are modelled as integers; the colour is the
RGB triple carried through the hex round trip of the code. -/
structure RunData where
  text : Str
  bold : Option Bool
  italic : Option Bool
  underline : Option Bool
  fontName : Option Str
  fontSize : Option Int
  colorRGB : Option (Nat × Nat × Nat)
  shading : Option Str
deriving DecidableEq

/-- Paragraph-level data copied by deep_copy_paragraph. -/
structure ParaData where
  style : Str
  alignment : Option Str
  indentLeft : Option Int
  indentRight : Option Int
  indentFirst : Option Int
  spaceBefore : Option Int
  spaceAfter : Option Int
  lineSpacing : Option Int
  shading : Option Str
  runs : List RunData
deriving DecidableEq

/-- A table cell as deep_copy_table sees it: optional shading and its
paragraphs. -/
structure CellData where
  shading : Option Str
  paras : List ParaData
deriving DecidableEq

/-- A table as a grid of cells. -/
abbrev TableData := List (List CellData)

/-- Value copy of one run: a fresh run is created in the target and each
field of the source run is written onto it. -/
def copyRunData (r : RunData) : RunData :=
  { text := r.text
    bold := r.bold
    italic := r.italic
    underline := r.underline
    fontName := r.fontName
    fontSize := r.fontSize
    colorRGB := r.colorRGB
    shading := r.shading }

/-- Content produced by deep_copy_paragraph on a target paragraph:
formatting fields present on the source overwrite the target, absent
ones leave the target field untouched; the target runs are cleared and
replaced by value copies of the source runs. -/
def copyParaData (src tgt : ParaData) : ParaData :=
  { style := src.style
    alignment := match src.alignment with
                 | some v => some v
                 | none => tgt.alignment
    indentLeft := match src.indentLeft with
                  | some v => some v
                  | none => tgt.indentLeft
    indentRight := match src.indentRight with
                   | some v => some v
                   | none => tgt.indentRight
    indentFirst := match src.indentFirst with
                   | some v => some v
                   | none => tgt.indentFirst
    spaceBefore := match src.spaceBefore with
                   | some v => some v
                   | none => tgt.spaceBefore
    spaceAfter := match src.spaceAfter with
                  | some v => some v
                  | none => tgt.spaceAfter
    lineSpacing := match src.lineSpacing with
                   | some v => some v
                   | none => tgt.lineSpacing
    shading := match src.shading with
               | some v => some v
               | none => tgt.shading
    runs := src.runs.map copyRunData }

/-- A blank paragraph as created by `add_paragraph()` inside a fresh
table cell. -/
def blankPara : ParaData :=
  { style := []
    alignment := none
    indentLeft := none
    indentRight := none
    indentFirst := none
    spaceBefore := none
    spaceAfter := none
    lineSpacing := none
    shading := none
    runs := [] }

/-- Force the foreground colour of every run of a paragraph, as the
override loop of deep_copy_table does. -/
def forceColor (color : Option (Nat × Nat × Nat)) (p : ParaData) : ParaData :=
  match color with
  | none => p
  | some c => { p with runs := p.runs.map (fun r => { r with colorRGB := some c }) }

/-- The fixed highlight colour written into shaded target cells. -/
def fixedCellShade : Str := ( "#8A084B".toList)

/-- Content of the table produced by deep_copy_table: same dimensions,
each source cell copied with its shading normalised to the fixed
highlight colour when present, its paragraphs value-copied onto blank
target paragraphs, and the optional override colour forced on every run. -/
def copyTableData (t : TableData) (color : Option (Nat × Nat × Nat)) : TableData :=
  t.map (fun row => row.map (fun cell =>
    { shading := match cell.shading with
                 | some _ => some fixedCellShade
                 | none => none
      paras := cell.paras.map (fun p => forceColor color (copyParaData p blankPara)) }))

/-- Heap of block objects: paragraphs and tables addressed by identity,
as Python objects are.  Fresh objects receive identities at `nextId` and
above. -/
structure DocState where
  paras : Nat → Option ParaData
  tables : Nat → Option TableData
  nextId : Nat

/-- deep_copy_paragraph on the heap: reads the source paragraph and
overwrites only the target paragraph object with the copied content. -/
def copyParagraphH (src tgt : Nat) (σ : DocState) : DocState :=
  match σ.paras src, σ.paras tgt with
  | some ps, some pt =>
      { σ with paras := fun k => if k = tgt then some (copyParaData ps pt) else σ.paras k }
  | _, _ => σ

/-- deep_copy_table on the heap: reads the source table and allocates a
fresh table object holding the copied content. -/
def deep_copy_tableH (srcTbl : Nat) (color : Option (Nat × Nat × Nat)) (σ : DocState) : DocState :=
  match σ.tables srcTbl with
  | some t =>
      { σ with
        tables := fun k => if k = σ.nextId then some (copyTableData t color) else σ.tables k
        nextId := σ.nextId + 1 }
  | none => σ

/-- A concrete two-paragraph heap used to instantiate the frame
theorem. -/
def docState0 : DocState :=
  { paras := fun k =>
      if k = 0 then some blankPara
      else if k = 1 then some { blankPara with style := [ 'N' ] }
      else none
    tables := fun k => if k = 0 then some [[{ shading := none, paras := [blankPara] }]] else none
    nextId := 7 }

/-- Modelled from the spec: the structural diff engine.  The code calls
the standard-library sequence matcher, which is not part of this
repository; §4.6 describes it as a longest-common-subsequence opcode
decomposition over the projected key sequences.  `runLen` is the length
of the common run of the two sequences starting at positions i and j,
bounded by the current ranges. -/
def runLenF [DecidableEq α] (a b : List α) (ahi bhi : Nat) : Nat → Nat → Nat → Nat
  | 0, _, _ => 0
  | fuel + 1, i, j =>
      if i < ahi ∧ j < bhi ∧ i < a.length ∧ j < b.length ∧ a[i]? = b[j]? then
        1 + runLenF a b ahi bhi fuel (i + 1) (j + 1)
      else 0

/-- Length of the common run starting at (i, j), bounded by the ranges;
the fuel ahi - i dominates the run length exactly. -/
def runLen [DecidableEq α] (a b : List α) (ahi bhi : Nat) (i j : Nat) : Nat :=
  runLenF a b ahi bhi (ahi - i) i j

/-- Modelled from the spec: inner loop of the longest-match search at a
fixed old-side position, scanning new-side positions; a strictly longer
run replaces the current best, so the earliest longest match is kept. -/
def bestAt [DecidableEq α] (a b : List α) (ahi bhi blo bwidth i : Nat)
    (best : Nat × Nat × Nat) : Nat × Nat × Nat :=
  (List.range' blo bwidth).foldl
    (fun best j =>
      let k := runLen a b ahi bhi i j
      if best.2.2 < k then (i, j, k) else best)
    best

/-- Modelled from the spec: longest matching block of
a[alo:ahi] and b[blo:bhi], as a triple (i, j, k); k = 0 when the ranges
share no element. -/
def findLongestMatch [DecidableEq α] (a b : List α) (alo ahi blo bhi : Nat) : Nat × Nat × Nat :=
  (List.range' alo (ahi - alo)).foldl
    (fun best i => bestAt a b ahi bhi blo (bhi - blo) i best)
    (alo, blo, 0)

/-- Modelled from the spec: the matching blocks of the two ranges,
found by recursive divide and conquer around the longest match; the
fuel argument dominates the recursion depth and is chosen large enough
by the caller. -/
def matchingBlocksF [DecidableEq α] (a b : List α) :
    Nat → Nat → Nat → Nat → Nat → List (Nat × Nat × Nat)
  | 0, _, _, _, _ => []
  | fuel + 1, alo, ahi, blo, bhi =>
      match findLongestMatch a b alo ahi blo bhi with
      | (i, j, k) =>
          if k = 0 then []
          else
            matchingBlocksF a b fuel alo i blo j ++
              (i, j, k) :: matchingBlocksF a b fuel (i + k) ahi (j + k) bhi

/-- Matching blocks of two whole sequences. -/
def seqMatchingBlocks [DecidableEq α] (a b : List α) : List (Nat × Nat × Nat) :=
  matchingBlocksF a b (a.length + b.length + 1) 0 a.length 0 b.length

/-- Region tags of the diff result. -/
inductive Tag where
  | equal
  | delete
  | insert
  | replace
deriving DecidableEq

/-- One diff region: a tag with its half-open old-side range [i1, i2)
and new-side range [j1, j2). -/
structure Op where
  tag : Tag
  i1 : Nat
  i2 : Nat
  j1 : Nat
  j2 : Nat
deriving DecidableEq

/-- Modelled from the spec: the gap region emitted between the current
position (i0, j0) and the next matching block starting at (ai, bj): a
replace when both sides advance, else a delete or an insert, and nothing
when there is no gap. -/
def mkGap (i0 j0 ai bj : Nat) : List Op :=
  if i0 < ai ∧ j0 < bj then [⟨Tag.replace, i0, ai, j0, bj⟩]
  else if i0 < ai then [⟨Tag.delete, i0, ai, j0, bj⟩]
  else if j0 < bj then [⟨Tag.insert, i0, ai, j0, bj⟩]
  else []

/-- Modelled from the spec: regions from the matching blocks (with the
terminating sentinel already appended): each block contributes its gap
region and, when non-empty, its equal region. -/
def opcodesAux : Nat → Nat → List (Nat × Nat × Nat) → List Op
  | _, _, [] => []
  | i0, j0, (ai, bj, k) :: rest =>
      mkGap i0 j0 ai bj ++
        (if k = 0 then [] else [⟨Tag.equal, ai, ai + k, bj, bj + k⟩]) ++
        opcodesAux (ai + k) (bj + k) rest

/-- Modelled from the spec: the full ordered region list of the diff of
two key sequences. -/
def getOpcodes [DecidableEq α] (a b : List α) : List Op :=
  opcodesAux 0 0 (seqMatchingBlocks a b ++ [(a.length, b.length, 0)])

/-- Exact double-sided cover check: the region list starts at (i0, j0),
each region continues exactly where the previous one ended on both the
old and the new side, ranges never run backwards, and the last region
ends exactly at (la, lb).  This is the formal statement of
partitioning both index ranges with no gaps, no overlaps, in order. -/
def coversChk : Nat → Nat → List Op → Nat → Nat → Bool
  | i0, j0, [], la, lb => i0 == la && j0 == lb
  | i0, j0, op :: rest, la, lb =>
      (op.i1 == i0) && (op.j1 == j0) && decide (op.i1 ≤ op.i2) && decide (op.j1 ≤ op.j2) &&
        coversChk op.i2 op.j2 rest la lb

/-- Monotone chain bound on a matching-block list: blocks advance from
(i0, j0) and stay within (la, lb). -/
def ChainBnd : Nat → Nat → Nat → Nat → List (Nat × Nat × Nat) → Prop
  | i0, j0, la, lb, [] => i0 ≤ la ∧ j0 ≤ lb
  | i0, j0, la, lb, (ai, bj, k) :: rest => i0 ≤ ai ∧ j0 ≤ bj ∧ ChainBnd (ai + k) (bj + k) la lb rest

/-- Old-side diff key projection of process_part_b: stripped paragraph
text, a fixed sentinel for tables. -/
def origTexts : List Block → List Str
  | [] => []
  | Block.para t :: bs => pyStrip t :: origTexts bs
  | Block.table _ :: bs => ( "TABLE".toList) :: origTexts bs

/-- New-side diff key projection of process_part_b: stripped paragraph
text with every modification marker removed, a fixed sentinel for
tables. -/
def newTexts : List Block → List Str
  | [] => []
  | Block.para t :: bs => removeStars (pyStrip t) :: newTexts bs
  | Block.table _ :: bs => ( "TABLE".toList) :: newTexts bs

/-- Modelled from the spec: the per-block old-side comparison key. -/
def keyOldSpec : Block → Str
  | Block.para t => pyStrip t
  | Block.table _ => ( "TABLE".toList)

/-- Modelled from the spec: the per-block new-side comparison key. -/
def keyNewSpec : Block → Str
  | Block.para t => removeStars (pyStrip t)
  | Block.table _ => ( "TABLE".toList)

/-- A flagged article header in the rendered diff sequence: a paragraph
matching the article pattern after stripping whose raw text carries the
modification marker. -/
def flaggedBlock : Block → Bool
  | Block.para t => articleMatch (pyStrip t) && t.contains '*'
  | Block.table _ => false

/-- Positions of flagged headers, collected in one ascending scan before
any insertion (the enumerate loop of process_part_b). -/
def flagPosGo : Nat → List Block → List Nat
  | _, [] => []
  | i, b :: bs => (if flaggedBlock b then [i] else []) ++ flagPosGo (i + 1) bs

/-- The collected insertion positions. -/
def insertPositions (blocks : List Block) : List Nat := flagPosGo 0 blocks

/-- The annotator splice: one reference paragraph is inserted at each
collected position, applied in descending position order. -/
def spliceRefs (blocks : List Block) (ref : Block) : List Block :=
  (insertPositions blocks).reverse.foldl (fun acc pos => List.insertIdx pos ref acc) blocks

/-- Modelled from the spec: the intended shape after the splice — every
flagged header is immediately preceded by one fresh reference
paragraph and no other block moves relative to its neighbours. -/
def interleaveSpec (ref : Block) : List Block → List Block
  | [] => []
  | b :: bs => (if flaggedBlock b then [ref, b] else [b]) ++ interleaveSpec ref bs

/-- Concrete four-paragraph document for the Part A splice: two
articles of two paragraphs each. -/
def exC1doc : List Str :=
  [ ( "Član 1".toList), ( "body1".toList), ( "Član 2".toList), ( "body2".toList) ]

/-- Concrete block sequence with two headers sharing the same trimmed
text. -/
def exC5dup : List Block :=
  [ Block.para ( "Član 1".toList), Block.para ( "x".toList), Block.para ( "Član 1".toList) ]

/-- Concrete 20-block sequence with headers at indices 0, 5 and 12. -/
def exC5spans : List Block :=
  [ Block.para ( "Član 1".toList),
    Block.para ( "a1".toList), Block.para ( "a2".toList), Block.para ( "a3".toList),
    Block.para ( "a4".toList),
    Block.para ( "Član 2".toList),
    Block.para ( "b1".toList), Block.para ( "b2".toList), Block.para ( "b3".toList),
    Block.para ( "b4".toList), Block.para ( "b5".toList), Block.para ( "b6".toList),
    Block.para ( "Član 3".toList),
    Block.para ( "c1".toList), Block.para ( "c2".toList), Block.para ( "c3".toList),
    Block.para ( "c4".toList), Block.para ( "c5".toList), Block.para ( "c6".toList),
    Block.para ( "c7".toList) ]

/-- Concrete amendment document with two candidates for each of the
three components of the citation. -/
def exC6 : List Block :=
  [ Block.para ( "Član 1".toList),
    Block.para ( "Član 2".toList),
    Block.para ( "zakon o a".toList),
    Block.para ( "zakon o b".toList),
    Block.para ( "sl. glasnik rs 1".toList),
    Block.para ( "sl. glasnik rs 2".toList) ]

/-- Concrete old citation paragraph text. -/
def exC3old : Str := ( "Zakon (\"Sl. glasnik RS\", br. 44/2021)".toList)

/-- Concrete amendment citation paragraph text. -/
def exC3new : Str := ( "Izmena (\"Sl. glasnik RS\", br. 44/2021 i 95/2022)".toList)

/-- Concrete rendered diff sequence with three flagged headers. -/
def exC10 : List Block :=
  [ Block.para ( "Član 1*".toList), Block.para ( "telo a".toList),
    Block.para ( "Član 2*".toList), Block.para ( "telo b".toList),
    Block.para ( "Član 3*".toList) ]

/-- The reference paragraph spliced in by the annotator. -/
def exC10ref : Block := Block.para ( "[REF]".toList)


/-- Invariance of a predicate under a left fold. -/
theorem foldlInv {α : Type _} {β : Type _} (f : β → α → β) (P : β → Prop) :
    ∀ (l : List α) (init : β), P init → (∀ acc x, x ∈ l → P acc → P (f acc x)) →
      P (l.foldl f init)
  | [], _, h0, _ => h0
  | x :: xs, init, h0, hstep =>
      foldlInv f P xs (f init x) (hstep init x (by simp) h0)
        (fun acc y hy hacc => hstep acc y (by simp [hy]) hacc)

/-- First projection of a literal triple. -/
theorem tripFst (x y z : Nat) : ((x, y, z) : Nat × Nat × Nat).1 = x := rfl

/-- Middle projection of a literal triple. -/
theorem tripSnd1 (x y z : Nat) : ((x, y, z) : Nat × Nat × Nat).2.1 = y := rfl

/-- Last projection of a literal triple. -/
theorem tripSnd2 (x y z : Nat) : ((x, y, z) : Nat × Nat × Nat).2.2 = z := rfl

/-- Common runs never run past the old-side range end. -/
theorem runLenF_le_a [DecidableEq α] (a b : List α) (ahi bhi : Nat) :
    ∀ (fuel i j : Nat), runLenF a b ahi bhi fuel i j ≤ ahi - i
  | 0, i, j => by simp [runLenF]
  | fuel + 1, i, j => by
      unfold runLenF
      split
      · rename_i h
        have := runLenF_le_a a b ahi bhi fuel (i + 1) (j + 1)
        omega
      · omega

/-- Common runs never run past the new-side range end. -/
theorem runLenF_le_b [DecidableEq α] (a b : List α) (ahi bhi : Nat) :
    ∀ (fuel i j : Nat), runLenF a b ahi bhi fuel i j ≤ bhi - j
  | 0, i, j => by simp [runLenF]
  | fuel + 1, i, j => by
      unfold runLenF
      split
      · rename_i h
        have := runLenF_le_b a b ahi bhi fuel (i + 1) (j + 1)
        omega
      · omega

theorem runLen_le_a [DecidableEq α] (a b : List α) (ahi bhi i j : Nat) :
    runLen a b ahi bhi i j ≤ ahi - i := runLenF_le_a a b ahi bhi (ahi - i) i j

theorem runLen_le_b [DecidableEq α] (a b : List α) (ahi bhi i j : Nat) :
    runLen a b ahi bhi i j ≤ bhi - j := runLenF_le_b a b ahi bhi (ahi - i) i j

/-- On a sequence against itself the run from (i, i) reaches the end. -/
theorem runLenF_self [DecidableEq α] (a : List α) :
    ∀ (fuel i : Nat), fuel = a.length - i →
      runLenF a a a.length a.length fuel i i = a.length - i
  | 0, i, h => by simp [runLenF]; omega
  | fuel + 1, i, h => by
      have hi : i < a.length := by omega
      unfold runLenF
      rw [if_pos ⟨hi, hi, hi, hi, rfl⟩]
      have := runLenF_self a fuel (i + 1) (by omega)
      omega

theorem runLen_self [DecidableEq α] (a : List α) (i : Nat) :
    runLen a a a.length a.length i i = a.length - i :=
  runLenF_self a (a.length - i) i rfl

/-- Bounds of the longest-match search: the reported block lies inside
the searched ranges. -/
theorem flm_bounds [DecidableEq α] (a b : List α) (alo ahi blo bhi : Nat)
    (halo : alo ≤ ahi) (hblo : blo ≤ bhi) :
    alo ≤ (findLongestMatch a b alo ahi blo bhi).1 ∧
      (findLongestMatch a b alo ahi blo bhi).1 +
        (findLongestMatch a b alo ahi blo bhi).2.2 ≤ ahi ∧
      blo ≤ (findLongestMatch a b alo ahi blo bhi).2.1 ∧
      (findLongestMatch a b alo ahi blo bhi).2.1 +
        (findLongestMatch a b alo ahi blo bhi).2.2 ≤ bhi := by
  unfold findLongestMatch
  apply foldlInv
    (P := fun best : Nat × Nat × Nat =>
      alo ≤ best.1 ∧ best.1 + best.2.2 ≤ ahi ∧ blo ≤ best.2.1 ∧ best.2.1 + best.2.2 ≤ bhi)
  · simp only [tripFst, tripSnd1, tripSnd2]
    omega
  · intro acc i hi hacc
    unfold bestAt
    apply foldlInv
      (P := fun best : Nat × Nat × Nat =>
        alo ≤ best.1 ∧ best.1 + best.2.2 ≤ ahi ∧ blo ≤ best.2.1 ∧ best.2.1 + best.2.2 ≤ bhi)
    · exact hacc
    · intro best j hj hbest
      simp only []
      split
      · have hi' := List.mem_range'_1.mp hi
        have hj' := List.mem_range'_1.mp hj
        have hka := runLen_le_a a b ahi bhi i j
        have hkb := runLen_le_b a b ahi bhi i j
        simp only [tripFst, tripSnd1, tripSnd2]
        omega
      · exact hbest

/-- The longest match of a non-empty sequence with itself is the whole
sequence. -/
theorem flm_self [DecidableEq α] (a : List α) (n : Nat) (hn : n = a.length) (hpos : 0 < n) :
    findLongestMatch a a 0 n 0 n = (0, 0, n) := by
  obtain ⟨m, rfl⟩ : ∃ m, n = m + 1 := ⟨n - 1, by omega⟩
  unfold findLongestMatch
  rw [Nat.sub_zero, List.range'_succ, List.foldl_cons]
  have hfix : bestAt a a (m + 1) (m + 1) 0 (m + 1 - 0) 0 (0, 0, 0) = (0, 0, m + 1) := by
    unfold bestAt
    rw [Nat.sub_zero, List.range'_succ, List.foldl_cons]
    have h0 : runLen a a (m + 1) (m + 1) 0 0 = m + 1 := by
      have h1 := runLen_self a 0
      rw [← hn] at h1
      simpa using h1
    simp only [h0, tripSnd2]
    rw [if_pos (Nat.succ_pos m)]
    apply foldlInv (P := fun best : Nat × Nat × Nat => best = (0, 0, m + 1))
    · rfl
    · intro acc j hj hacc
      subst hacc
      have hk := runLen_le_a a a (m + 1) (m + 1) 0 j
      simp only [tripSnd2]
      rw [if_neg (by omega)]
  rw [Nat.sub_zero] at hfix
  rw [hfix]
  apply foldlInv (P := fun best : Nat × Nat × Nat => best = (0, 0, m + 1))
  · rfl
  · intro acc i hi hacc
    subst hacc
    unfold bestAt
    apply foldlInv (P := fun best : Nat × Nat × Nat => best = (0, 0, m + 1))
    · rfl
    · intro best j hj hbest
      subst hbest
      have hk := runLen_le_a a a (m + 1) (m + 1) i j
      have hi' := List.mem_range'_1.mp hi
      simp only [tripSnd2]
      rw [if_neg (by omega)]

/-- A chain bound can be weakened at its start. -/
theorem chainBnd_weaken :
    ∀ (bs : List (Nat × Nat × Nat)) (i0 j0 i0' j0' la lb : Nat),
      i0' ≤ i0 → j0' ≤ j0 → ChainBnd i0 j0 la lb bs → ChainBnd i0' j0' la lb bs
  | [], _, _, _, _, _, _, h1, h2, h => ⟨Nat.le_trans h1 h.1, Nat.le_trans h2 h.2⟩
  | (_, _, _) :: _, _, _, _, _, _, _, h1, h2, h =>
      ⟨Nat.le_trans h1 h.1, Nat.le_trans h2 h.2.1, h.2.2⟩

/-- Chain bounds compose over list append. -/
theorem chainBnd_append :
    ∀ (xs ys : List (Nat × Nat × Nat)) (i0 j0 p q la lb : Nat),
      ChainBnd i0 j0 p q xs → ChainBnd p q la lb ys → ChainBnd i0 j0 la lb (xs ++ ys)
  | [], ys, i0, j0, p, q, la, lb, hx, hy =>
      chainBnd_weaken ys p q i0 j0 la lb hx.1 hx.2 hy
  | (ai, bj, k) :: rest, ys, _, _, p, q, la, lb, hx, hy =>
      ⟨hx.1, hx.2.1, chainBnd_append rest ys (ai + k) (bj + k) p q la lb hx.2.2 hy⟩

/-- The matching blocks of two ranges form a monotone chain inside those
ranges, for every fuel. -/
theorem mbF_chain [DecidableEq α] (a b : List α) :
    ∀ (fuel alo ahi blo bhi : Nat), alo ≤ ahi → blo ≤ bhi →
      ChainBnd alo blo ahi bhi (matchingBlocksF a b fuel alo ahi blo bhi)
  | 0, _, _, _, _, halo, hblo => ⟨halo, hblo⟩
  | fuel + 1, alo, ahi, blo, bhi, halo, hblo => by
      have hb := flm_bounds a b alo ahi blo bhi halo hblo
      unfold matchingBlocksF
      rcases hr : findLongestMatch a b alo ahi blo bhi with ⟨i, j, k⟩
      rw [hr] at hb
      simp only [tripFst, tripSnd1, tripSnd2] at hb
      show ChainBnd alo blo ahi bhi
        (if k = 0 then []
         else matchingBlocksF a b fuel alo i blo j ++
           (i, j, k) :: matchingBlocksF a b fuel (i + k) ahi (j + k) bhi)
      by_cases hk : k = 0
      · rw [if_pos hk]
        exact ⟨halo, hblo⟩
      · rw [if_neg hk]
        have hleft := mbF_chain a b fuel alo i blo j (by omega) (by omega)
        have hright := mbF_chain a b fuel (i + k) ahi (j + k) bhi (by omega) (by omega)
        exact chainBnd_append _ _ alo blo i j ahi bhi hleft
          ⟨Nat.le_refl _, Nat.le_refl _, hright⟩

/-- Prepending a gap does not change the cover check, provided the
current position does not exceed the gap end. -/
theorem coversChk_gap (i0 j0 ai bj la lb : Nat) (ops : List Op)
    (h1 : i0 ≤ ai) (h2 : j0 ≤ bj) :
    coversChk i0 j0 (mkGap i0 j0 ai bj ++ ops) la lb = coversChk ai bj ops la lb := by
  unfold mkGap
  split
  · rename_i h
    simp [coversChk, h1, h2]
  · split
    · rename_i hno hyes
      have : j0 = bj := by omega
      subst this
      simp [coversChk, h1]
    · split
      · rename_i h1' h2' h3'
        have : i0 = ai := by omega
        subst this
        simp [coversChk, h2]
      · rename_i h1' h2' h3'
        have ha : i0 = ai := by omega
        have hb : j0 = bj := by omega
        subst ha
        subst hb
        simp

/-- Regions generated from a chained matching-block list with its
sentinel cover both sides exactly. -/
theorem opcodesAux_covers :
    ∀ (bs : List (Nat × Nat × Nat)) (i0 j0 la lb : Nat),
      ChainBnd i0 j0 la lb bs →
      coversChk i0 j0 (opcodesAux i0 j0 (bs ++ [(la, lb, 0)])) la lb = true
  | [], i0, j0, la, lb, h => by
      simp only [List.nil_append]
      unfold opcodesAux
      rw [if_pos rfl, List.append_assoc, List.nil_append,
        coversChk_gap i0 j0 la lb la lb _ h.1 h.2]
      show coversChk la lb [] la lb = true
      simp [coversChk]
  | (ai, bj, k) :: rest, i0, j0, la, lb, h => by
      simp only [List.cons_append]
      unfold opcodesAux
      rw [List.append_assoc, coversChk_gap i0 j0 ai bj la lb _ h.1 h.2.1]
      by_cases hk : k = 0
      · subst hk
        rw [if_pos rfl, List.nil_append]
        exact opcodesAux_covers rest (ai + 0) (bj + 0) la lb h.2.2
      · rw [if_neg hk]
        have hrec := opcodesAux_covers rest (ai + k) (bj + k) la lb h.2.2
        simp [coversChk, hrec, Nat.le_add_right]

/-- C2: for any two finite block-key sequences, the ordered region list
returned by the diff engine partitions the old index range and the new
index range exactly: regions are contiguous on both sides, start at
(0, 0), never run backwards, and end exactly at the two lengths — no
gaps, no overlaps, ordered by old-sequence position. -/
theorem C2_diff_partition (a b : List Str) :
    coversChk 0 0 (getOpcodes a b) a.length b.length = true := by
  unfold getOpcodes seqMatchingBlocks
  exact opcodesAux_covers _ 0 0 _ _
    (mbF_chain a b _ 0 a.length 0 b.length (Nat.zero_le _) (Nat.zero_le _))

/-- Empty ranges yield no matching blocks, for every fuel. -/
theorem mbF_empty [DecidableEq α] (a b : List α) :
    ∀ (fuel x y : Nat), matchingBlocksF a b fuel x x y y = []
  | 0, _, _ => rfl
  | fuel + 1, x, y => by
      unfold matchingBlocksF
      have hflm : findLongestMatch a b x x y y = (x, y, 0) := by
        unfold findLongestMatch
        simp
      rw [hflm]
      rfl

/-- A non-empty sequence matched against itself yields one matching
block spanning the whole sequence, for positive fuel. -/
theorem mbF_self [DecidableEq α] (a : List α) (fuel : Nat) (hfuel : 0 < fuel)
    (hpos : 0 < a.length) :
    matchingBlocksF a a fuel 0 a.length 0 a.length = [(0, 0, a.length)] := by
  obtain ⟨f, rfl⟩ : ∃ f, fuel = f + 1 := ⟨fuel - 1, by omega⟩
  have hne : ¬ a.length = 0 := by omega
  unfold matchingBlocksF
  rw [flm_self a a.length rfl hpos]
  simp [hne, mbF_empty]

/-- C8 counterexample: at the empty sequence the diff yields the empty
region list, not one equal region spanning the whole (empty) sequence,
so the claim fails at S = []. -/
theorem C8_empty_counterexample :
    getOpcodes ([] : List Str) [] = [] ∧
      getOpcodes ([] : List Str) [] ≠ [⟨Tag.equal, 0, 0, 0, 0⟩] := by
  constructor
  · decide
  · decide

/-- C8 (amended): for every non-empty key sequence S, diffing S against
itself yields exactly one equal region spanning the whole sequence and
zero delete, insert or replace regions; for the empty sequence the
region list is empty. -/
theorem C8_diff_identity (S : List Str) (h : S ≠ []) :
    getOpcodes S S = [⟨Tag.equal, 0, S.length, 0, S.length⟩] := by
  have hpos : 0 < S.length := List.length_pos.mpr h
  have hne : ¬ S.length = 0 := by omega
  unfold getOpcodes seqMatchingBlocks
  rw [mbF_self S _ (by omega) hpos]
  simp [opcodesAux, mkGap, hne]

/-- C8 witness: the identity diff of a concrete one-element sequence. -/
theorem C8_diff_identity_witness :
    ([ ( "x".toList) ] : List Str) ≠ [] ∧
      getOpcodes ([ ( "x".toList) ] : List Str) [ ( "x".toList) ] = [⟨Tag.equal, 0, 1, 0, 1⟩] :=
  ⟨by decide, C8_diff_identity [ ( "x".toList) ] (by decide)⟩

/-- C1: the Part A splice does not put the revised article lines in the
position of the removed span.  On a four-paragraph document with two
articles, amending the first article (span [0, 2)) produces the
remaining blocks followed by the revised lines at the end of the
document, not the revised lines in place; the claimed in-place result
differs. -/
theorem C1_partA_appends_at_end :
    partA_replace exC1doc 0 2 [ ( "Član 1*".toList) ] =
        [ ( "Član 2".toList), ( "body2".toList), ( "Član 1*".toList) ] ∧
      partA_replace exC1doc 0 2 [ ( "Član 1*".toList) ] ≠
        [ ( "Član 1*".toList), ( "Član 2".toList), ( "body2".toList) ] := by
  constructor
  · decide
  · decide

/-- Lexicographic order on strings is transitive. -/
theorem strLt_trans : ∀ (a b c : Str), strLt a b = true → strLt b c = true → strLt a c = true
  | [], [], _, hab, _ => by simp [strLt] at hab
  | [], _ :: _, [], _, hbc => by simp [strLt] at hbc
  | [], _ :: _, _ :: _, _, _ => by simp [strLt]
  | _ :: _, [], _, hab, _ => by simp [strLt] at hab
  | _ :: _, _ :: _, [], _, hbc => by simp [strLt] at hbc
  | x :: xs, y :: ys, z :: zs, hab, hbc => by
      rcases lt_trichotomy x y with hxy | hxy | hxy
      · rcases lt_trichotomy y z with hyz | hyz | hyz
        · simp [strLt, lt_trans hxy hyz]
        · subst hyz
          simp [strLt, hxy]
        · rw [show strLt (y :: ys) (z :: zs) =
              (if y < z then true else if z < y then false else strLt ys zs) from rfl] at hbc
          rw [if_neg (lt_asymm hyz), if_pos hyz] at hbc
          exact absurd hbc (by simp)
      · subst hxy
        rw [show strLt (x :: xs) (x :: ys) =
            (if x < x then true else if x < x then false else strLt xs ys) from rfl] at hab
        rw [if_neg (lt_irrefl x), if_neg (lt_irrefl x)] at hab
        rcases lt_trichotomy x z with hxz | hxz | hxz
        · simp [strLt, hxz]
        · subst hxz
          rw [show strLt (x :: ys) (x :: zs) =
              (if x < x then true else if x < x then false else strLt ys zs) from rfl] at hbc
          rw [if_neg (lt_irrefl x), if_neg (lt_irrefl x)] at hbc
          rw [show strLt (x :: xs) (x :: zs) =
              (if x < x then true else if x < x then false else strLt xs zs) from rfl]
          rw [if_neg (lt_irrefl x), if_neg (lt_irrefl x)]
          exact strLt_trans xs ys zs hab hbc
        · rw [show strLt (x :: ys) (z :: zs) =
              (if x < z then true else if z < x then false else strLt ys zs) from rfl] at hbc
          rw [if_neg (lt_asymm hxz), if_pos hxz] at hbc
          exact absurd hbc (by simp)
      · rw [show strLt (x :: xs) (y :: ys) =
            (if x < y then true else if y < x then false else strLt xs ys) from rfl] at hab
        rw [if_neg (lt_asymm hxy), if_pos hxy] at hab
        exact absurd hab (by simp)

/-- Lexicographic order on strings is total up to equality. -/
theorem strLt_total : ∀ (a b : Str), strLt a b = true ∨ strLt b a = true ∨ a = b
  | [], [] => Or.inr (Or.inr rfl)
  | [], _ :: _ => Or.inl (by simp [strLt])
  | _ :: _, [] => Or.inr (Or.inl (by simp [strLt]))
  | x :: xs, y :: ys => by
      rcases lt_trichotomy x y with hxy | hxy | hxy
      · exact Or.inl (by simp [strLt, hxy])
      · subst hxy
        rcases strLt_total xs ys with h | h | h
        · refine Or.inl ?_
          rw [show strLt (x :: xs) (x :: ys) =
              (if x < x then true else if x < x then false else strLt xs ys) from rfl]
          rw [if_neg (lt_irrefl x), if_neg (lt_irrefl x)]
          exact h
        · refine Or.inr (Or.inl ?_)
          rw [show strLt (x :: ys) (x :: xs) =
              (if x < x then true else if x < x then false else strLt ys xs) from rfl]
          rw [if_neg (lt_irrefl x), if_neg (lt_irrefl x)]
          exact h
        · exact Or.inr (Or.inr (by rw [h]))
      · exact Or.inr (Or.inl (by simp [strLt, hxy]))

/-- The non-strict order is transitive. -/
theorem strLe_trans (a b c : Str) (hab : strLe a b = true) (hbc : strLe b c = true) :
    strLe a c = true := by
  unfold strLe at hab hbc ⊢
  simp only [Bool.or_eq_true, beq_iff_eq] at hab hbc ⊢
  rcases hab with hab | hab
  · rcases hbc with hbc | hbc
    · exact Or.inl (strLt_trans a b c hab hbc)
    · subst hbc
      exact Or.inl hab
  · subst hab
    exact hbc

/-- The non-strict order is total. -/
theorem strLe_total (a b : Str) : strLe a b = true ∨ strLe b a = true := by
  unfold strLe
  simp only [Bool.or_eq_true, beq_iff_eq]
  rcases strLt_total a b with h | h | h
  · exact Or.inl (Or.inl h)
  · exact Or.inr (Or.inl h)
  · exact Or.inl (Or.inr h)

instance : IsTrans Str TokLE := by
  constructor
  intro a b c hab hbc
  unfold TokLE tokLe at hab hbc ⊢
  by_cases h1 : isDigitsStr a = isDigitsStr b
  · by_cases h2 : isDigitsStr b = isDigitsStr c
    · rw [if_pos h1] at hab
      rw [if_pos h2] at hbc
      rw [if_pos (h1.trans h2)]
      exact strLe_trans a b c hab hbc
    · rw [if_neg h2] at hbc
      rw [if_neg (by rw [h1]; exact h2)]
      rw [h1]
      exact hbc
  · rw [if_neg h1] at hab
    by_cases h2 : isDigitsStr b = isDigitsStr c
    · rw [if_neg (fun h => h1 (h.trans h2.symm))]
      exact hab
    · rw [if_neg h2] at hbc
      cases hb : isDigitsStr b
      · rw [hb] at hbc
        exact absurd hbc (by simp)
      · rw [hb] at h1
        rw [hab] at h1
        exact absurd rfl h1

instance : IsTotal Str TokLE := by
  constructor
  intro a b
  unfold TokLE tokLe
  by_cases h : isDigitsStr a = isDigitsStr b
  · rw [if_pos h, if_pos h.symm]
    exact strLe_total a b
  · rw [if_neg h, if_neg (fun h' => h h'.symm)]
    cases ha : isDigitsStr a
    · cases hb : isDigitsStr b
      · rw [ha, hb] at h
        exact absurd rfl h
      · exact Or.inr rfl
    · exact Or.inl rfl

/-- C3: whenever both texts contain a parseable gazette citation, the
merged citation list is exactly the set union of the two token lists
(membership both ways, no duplicates), sorted by the key (token is not
purely numeric, token) so purely numeric tokens come first and ties are
lexicographic, and merge_gazette_text re-renders the old text by
replacing the matched substring with the rendering of that list joined
by the conjunction token. -/
theorem C3_merge_union_sorted (oldT newT m0 g0 m1 g1 : Str)
    (h0 : gazetteSearchGo oldT = some (m0, g0))
    (h1 : gazetteSearchGo newT = some (m1, g1)) :
    (∀ x, x ∈ mergedRefs g0 g1 ↔ x ∈ tokensOf g0 ∨ x ∈ tokensOf g1)
      ∧ (mergedRefs g0 g1).Nodup
      ∧ List.Sorted TokLE (mergedRefs g0 g1)
      ∧ merge_gazette_text oldT newT =
          replaceAll m0 (renderGaz (mergedRefs g0 g1)) oldT := by
  refine ⟨?_, ?_, ?_, ?_⟩
  · intro x
    unfold mergedRefs
    rw [(List.perm_insertionSort TokLE _).mem_iff, List.mem_dedup, List.mem_append]
  · exact (List.perm_insertionSort TokLE _).symm.nodup (List.nodup_dedup _)
  · exact List.sorted_insertionSort TokLE _
  · unfold merge_gazette_text
    rw [h0, h1]

/-- C3 witness: the concrete merge of the citation lists 44/2021 and
44/2021 i 95/2022 renders as 44/2021 i 95/2022 inside the replaced
substring. -/
theorem C3_merge_union_sorted_witness :
    gazetteSearchGo exC3old =
        some ( ( "\"Sl. glasnik RS\", br. 44/2021)".toList), ( "44/2021".toList)) ∧
      gazetteSearchGo exC3new =
        some ( ( "\"Sl. glasnik RS\", br. 44/2021 i 95/2022)".toList),
          ( "44/2021 i 95/2022".toList)) ∧
      ((∀ x, x ∈ mergedRefs ( "44/2021".toList) ( "44/2021 i 95/2022".toList) ↔
            x ∈ tokensOf ( "44/2021".toList) ∨ x ∈ tokensOf ( "44/2021 i 95/2022".toList))
        ∧ (mergedRefs ( "44/2021".toList) ( "44/2021 i 95/2022".toList)).Nodup
        ∧ List.Sorted TokLE (mergedRefs ( "44/2021".toList) ( "44/2021 i 95/2022".toList))
        ∧ merge_gazette_text exC3old exC3new =
            replaceAll ( "\"Sl. glasnik RS\", br. 44/2021)".toList)
              (renderGaz (mergedRefs ( "44/2021".toList) ( "44/2021 i 95/2022".toList)))
              exC3old)
      ∧ mergedRefs ( "44/2021".toList) ( "44/2021 i 95/2022".toList) =
          [ ( "44/2021".toList), ( "95/2022".toList) ]
      ∧ List.intercalate sepIi (mergedRefs ( "44/2021".toList) ( "44/2021 i 95/2022".toList)) =
          ( "44/2021 i 95/2022".toList) :=
  ⟨by decide, by decide,
   C3_merge_union_sorted exC3old exC3new
     ( "\"Sl. glasnik RS\", br. 44/2021)".toList) ( "44/2021".toList)
     ( "\"Sl. glasnik RS\", br. 44/2021 i 95/2022)".toList) ( "44/2021 i 95/2022".toList)
     (by decide) (by decide),
   by decide, by decide⟩

/-- C4: the amendment applier accepts a service response only when the
cleaned line list has at least two lines and the first contains the
marker; it makes exactly three total attempts with the unchanged
criterion, returns the first accepted line list, and when all three
attempts fail it returns the original text split into lines — it is a
total function, so no error ever reaches the caller. -/
theorem C4_apply_amendment_contract :
    (∀ (svc : Nat → Option Str) (a : Nat) (resp : Str), svc a = some resp →
        svcAttempt svc a =
          (if linesOk (cleanLines (pyStrip resp)) then some (cleanLines (pyStrip resp))
           else none))
      ∧ (∀ ls : List Str, linesOk ls = true ↔ 2 ≤ ls.length ∧ (ls.headD []).contains '*' = true)
      ∧ (∀ (svc : Nat → Option Str) (old : Str),
          svcAttempt svc 0 = none → svcAttempt svc 1 = none → svcAttempt svc 2 = none →
          apply_amendment_text svc old = pySplitlines old)
      ∧ (∀ (svc : Nat → Option Str) (old : Str) (ls : List Str),
          svcAttempt svc 0 = some ls → apply_amendment_text svc old = ls)
      ∧ (∀ (svc : Nat → Option Str) (old : Str) (ls : List Str),
          svcAttempt svc 0 = none → svcAttempt svc 1 = some ls →
          apply_amendment_text svc old = ls)
      ∧ (∀ (svc : Nat → Option Str) (old : Str) (ls : List Str),
          svcAttempt svc 0 = none → svcAttempt svc 1 = none → svcAttempt svc 2 = some ls →
          apply_amendment_text svc old = ls) := by
  refine ⟨?_, ?_, ?_, ?_, ?_, ?_⟩
  · intro svc a resp h
    unfold svcAttempt
    rw [h]
  · intro ls
    match ls with
    | [] => simp [linesOk]
    | [a] => simp [linesOk]
    | a :: b :: rest =>
        simp only [linesOk, List.headD, List.length_cons]
        constructor
        · intro h
          exact ⟨by omega, h⟩
        · intro h
          exact h.2
  · intro svc old h0 h1 h2
    unfold apply_amendment_text
    rw [h0, h1, h2]
  · intro svc old ls h0
    unfold apply_amendment_text
    rw [h0]
  · intro svc old ls h0 h1
    unfold apply_amendment_text
    rw [h0, h1]
  · intro svc old ls h0 h1 h2
    unfold apply_amendment_text
    rw [h0, h1, h2]

/-- C4 witness: a service that always errors makes the applier return
the original two lines verbatim; a first-attempt valid response is
returned as its cleaned line list. -/
theorem C4_apply_amendment_contract_witness :
    apply_amendment_text (fun _ => none) ( "a\nb".toList) = pySplitlines ( "a\nb".toList) ∧
      pySplitlines ( "a\nb".toList) = [ ( "a".toList), ( "b".toList) ] ∧
      apply_amendment_text (fun _ => some ( "Član 9*\ntelo".toList)) ( "x".toList) =
        [ ( "Član 9*".toList), ( "telo".toList) ] :=
  ⟨C4_apply_amendment_contract.2.2.1 (fun _ => none) ( "a\nb".toList) (by decide) (by decide)
      (by decide),
   by decide,
   C4_apply_amendment_contract.2.2.2.1 (fun _ => some ( "Član 9*\ntelo".toList)) ( "x".toList)
      [ ( "Član 9*".toList), ( "telo".toList) ] (by decide)⟩

/-- Updating a dictionary at a fresh key appends the binding. -/
theorem dictUpd_fresh :
    ∀ (acc : List (Str × Nat × Nat)) (k : Str) (v : Nat × Nat),
      k ∉ dictKeys acc → dictUpd k v acc = acc ++ [(k, v)]
  | [], _, _, _ => rfl
  | (k', v') :: rest, k, v, h => by
      have hk : ¬ (k = k' ∨ k ∈ dictKeys rest) := by
        simpa [dictKeys] using h
      unfold dictUpd
      rw [if_neg (fun he => hk (Or.inl he.symm))]
      rw [dictUpd_fresh rest k v (fun hm => hk (Or.inr hm))]
      rfl

/-- The extract_articles loop is a left fold of dictionary updates over
the spec span list. -/
theorem eaRun_foldl :
    ∀ (bs : List Block) (i : Nat) (cur : Option (Str × Nat)) (acc : List (Str × Nat × Nat)),
      eaRun bs i cur acc =
        (spansGo bs i cur).foldl (fun d kv => dictUpd kv.1 kv.2 d) acc
  | [], i, none, acc => rfl
  | [], i, some (c, s), acc => rfl
  | b :: bs, i, cur, acc => by
      unfold eaRun spansGo
      by_cases hb : isHeaderBlock b
      · rw [if_pos hb, if_pos hb, List.foldl_append]
        rw [eaRun_foldl bs (i + 1) (some (blockStripText b, i))]
        cases cur with
        | none => rfl
        | some cs => rfl
      · rw [if_neg hb, if_neg hb]
        exact eaRun_foldl bs (i + 1) cur acc

/-- Keys of a cons. -/
theorem dictKeys_cons (x : Str × Nat × Nat) (l : List (Str × Nat × Nat)) :
    dictKeys (x :: l) = x.1 :: dictKeys l := rfl

/-- Keys of an append. -/
theorem dictKeys_append (l1 l2 : List (Str × Nat × Nat)) :
    dictKeys (l1 ++ l2) = dictKeys l1 ++ dictKeys l2 := by
  simp [dictKeys]

/-- Folding dictionary updates over bindings with fresh, pairwise
distinct keys appends them all in order. -/
theorem foldl_dictUpd_fresh :
    ∀ (xs : List (Str × Nat × Nat)) (acc : List (Str × Nat × Nat)),
      (dictKeys xs).Nodup → (∀ k, k ∈ dictKeys xs → k ∉ dictKeys acc) →
      xs.foldl (fun d kv => dictUpd kv.1 kv.2 d) acc = acc ++ xs
  | [], acc, _, _ => by simp
  | (k, v) :: rest, acc, hnd, hfresh => by
      have hk : k ∉ dictKeys acc := hfresh k (by rw [dictKeys_cons]; simp)
      rw [dictKeys_cons, List.nodup_cons] at hnd
      rw [List.foldl_cons]
      show List.foldl (fun d kv => dictUpd kv.1 kv.2 d) (dictUpd k v acc) rest = _
      rw [dictUpd_fresh acc k v hk]
      rw [foldl_dictUpd_fresh rest (acc ++ [(k, v)]) hnd.2 ?fresh]
      · simp
      case fresh =>
        intro k' hk' hmem
        rw [dictKeys_append, List.mem_append] at hmem
        rcases hmem with h | h
        · exact hfresh k' (by rw [dictKeys_cons]; exact List.mem_cons_of_mem _ hk') h
        · rw [show dictKeys [(k, v)] = [k] from rfl, List.mem_singleton] at h
          subst h
          exact hnd.1 hk'

/-- When no block is a header, the spec span list is empty. -/
theorem spansGo_no_header :
    ∀ (bs : List Block) (i : Nat), (∀ b ∈ bs, isHeaderBlock b = false) →
      spansGo bs i none = []
  | [], _, _ => rfl
  | b :: bs, i, h => by
      unfold spansGo
      rw [if_neg (by simp [h b (by simp)])]
      exact spansGo_no_header bs (i + 1) (fun b' hb' => h b' (by simp [hb']))

/-- C5 (amended): extract_articles is keyed by the matched (the pattern
is case-insensitive), trimmed header paragraph text; when several
headers share the same trimmed text, only the last span survives the
dictionary overwrite; whenever the header keys are pairwise distinct the
mapping is exactly the spec span list, in which each header at index h
spans [h, h2) with h2 the index of the next header or the sequence
length; with zero headers it returns the empty mapping, not an error. -/
theorem C5_article_spans :
    (∀ blocks : List Block, (dictKeys (spansSpec blocks)).Nodup →
        extract_articles blocks = spansSpec blocks)
      ∧ (∀ blocks : List Block, (∀ b ∈ blocks, isHeaderBlock b = false) →
        extract_articles blocks = []) := by
  constructor
  · intro blocks hnd
    unfold extract_articles
    rw [eaRun_foldl]
    rw [foldl_dictUpd_fresh (spansGo blocks 0 none) [] hnd
      (by intro k _ hmem; simp [dictKeys] at hmem)]
    simp [spansSpec]
  · intro blocks hnb
    unfold extract_articles
    rw [eaRun_foldl, spansGo_no_header blocks 0 hnb]
    rfl

/-- C5 counterexample: with two headers carrying the same trimmed text
(indices 0 and 2 in a three-block sequence) the mapping holds only the
later span (2, 3); the span [0, 2) of the first header is absent, so not
every header yields its span. -/
theorem C5_duplicate_counterexample :
    extract_articles exC5dup = [ ( ( "Član 1".toList), 2, 3) ] ∧
      ( ( "Član 1".toList), 0, 2) ∉ extract_articles exC5dup := by
  constructor
  · decide
  · decide

/-- C5 witness: on the 20-block sequence with headers at 0, 5 and 12
the keys are distinct, extract_articles equals the spec span list, and
that list is exactly the spans [0,5), [5,12), [12,20); a header-free
sequence yields the empty mapping. -/
theorem C5_article_spans_witness :
    (dictKeys (spansSpec exC5spans)).Nodup ∧
      extract_articles exC5spans = spansSpec exC5spans ∧
      spansSpec exC5spans =
        [ ( ( "Član 1".toList), 0, 5), ( ( "Član 2".toList), 5, 12),
          ( ( "Član 3".toList), 12, 20) ] ∧
      (∀ b ∈ ([ Block.para ( "uvod".toList) ] : List Block), isHeaderBlock b = false) ∧
      extract_articles [ Block.para ( "uvod".toList) ] = [] :=
  ⟨by decide, C5_article_spans.1 exC5spans (by decide), by decide, by decide,
   C5_article_spans.2 [ Block.para ( "uvod".toList) ] (by decide)⟩

/-- Unfolding of the last hit on a cons. -/
theorem lastHit_cons (f : Block → Option Str) (b : Block) (bs : List Block) :
    lastHit f (b :: bs) =
      match lastHit f bs with
      | some r => some r
      | none => f b := rfl

/-- Defaulted last hit on a cons composes through the head block. -/
theorem getD_lastHit_cons (f : Block → Option Str) (b : Block) (bs : List Block) (a : Str) :
    (lastHit f (b :: bs)).getD a = (lastHit f bs).getD ((f b).getD a) := by
  rw [lastHit_cons]
  cases lastHit f bs <;> cases hfb : f b <;> simp [hfb]

/-- The extract_amending_ref loop keeps, for each component, the value
of the last contributing paragraph, falling back to the incoming
value. -/
theorem earLoop_last :
    ∀ (bs : List Block) (a l g : Str),
      earLoop bs a l g =
        ((lastHit hitArt bs).getD a, (lastHit hitLaw bs).getD l, (lastHit hitGaz bs).getD g)
  | [], _, _, _ => rfl
  | Block.table cs :: bs, a, l, g => by
      show earLoop bs a l g = _
      rw [earLoop_last bs a l g,
        getD_lastHit_cons hitArt (Block.table cs) bs a,
        getD_lastHit_cons hitLaw (Block.table cs) bs l,
        getD_lastHit_cons hitGaz (Block.table cs) bs g]
      simp [hitArt, hitLaw, hitGaz]
  | Block.para t :: bs, a, l, g => by
      show earLoop bs
          (if articleMatch (pyStrip t) then (pyStrip t).map pyUpper else a)
          (if containsSub zakonLit ((pyStrip t).map pyUpper) then (pyStrip t).map pyUpper else l)
          (if containsSub glasnikLit ((pyStrip t).map pyUpper) then (pyStrip t).map pyUpper
           else g) = _
      rw [earLoop_last bs,
        getD_lastHit_cons hitArt (Block.para t) bs a,
        getD_lastHit_cons hitLaw (Block.para t) bs l,
        getD_lastHit_cons hitGaz (Block.para t) bs g]
      have ha : (hitArt (Block.para t)).getD a =
          (if articleMatch (pyStrip t) then (pyStrip t).map pyUpper else a) := by
        show ((if articleMatch (pyStrip t) then some ((pyStrip t).map pyUpper)
            else none).getD a) = _
        by_cases hm : articleMatch (pyStrip t) <;> simp [hm]
      have hl : (hitLaw (Block.para t)).getD l =
          (if containsSub zakonLit ((pyStrip t).map pyUpper) then (pyStrip t).map pyUpper
           else l) := by
        show ((if containsSub zakonLit ((pyStrip t).map pyUpper)
            then some ((pyStrip t).map pyUpper) else none).getD l) = _
        by_cases hm : containsSub zakonLit ((pyStrip t).map pyUpper) <;> simp [hm]
      have hg : (hitGaz (Block.para t)).getD g =
          (if containsSub glasnikLit ((pyStrip t).map pyUpper) then (pyStrip t).map pyUpper
           else g) := by
        show ((if containsSub glasnikLit ((pyStrip t).map pyUpper)
            then some ((pyStrip t).map pyUpper) else none).getD g) = _
        by_cases hm : containsSub glasnikLit ((pyStrip t).map pyUpper) <;> simp [hm]
      rw [ha, hl, hg]

/-- A header hit is never the empty string: the pattern requires at
least four characters, and upper-casing preserves length. -/
theorem hitArt_ne_nil : ∀ (b : Block) (x : Str), hitArt b = some x → x ≠ []
  | Block.table _, x, h => by simp [hitArt] at h
  | Block.para t, x, h => by
      have h' : (if articleMatch (pyStrip t) then some ((pyStrip t).map pyUpper)
          else none) = some x := h
      by_cases hm : articleMatch (pyStrip t)
      · rw [if_pos hm] at h'
        obtain rfl : (pyStrip t).map pyUpper = x := by simpa using h'
        intro hx
        rw [List.map_eq_nil_iff] at hx
        rw [hx] at hm
        exact absurd hm (by decide)
      · rw [if_neg hm] at h'
        simp at h'

/-- A statute hit is never the empty string: the marker cannot occur in
an empty string. -/
theorem hitLaw_ne_nil : ∀ (b : Block) (x : Str), hitLaw b = some x → x ≠ []
  | Block.table _, x, h => by simp [hitLaw] at h
  | Block.para t, x, h => by
      have h' : (if containsSub zakonLit ((pyStrip t).map pyUpper)
          then some ((pyStrip t).map pyUpper) else none) = some x := h
      by_cases hm : containsSub zakonLit ((pyStrip t).map pyUpper)
      · rw [if_pos hm] at h'
        obtain rfl : (pyStrip t).map pyUpper = x := by simpa using h'
        intro hx
        rw [hx] at hm
        exact absurd hm (by decide)
      · rw [if_neg hm] at h'
        simp at h'

/-- A gazette hit is never the empty string. -/
theorem hitGaz_ne_nil : ∀ (b : Block) (x : Str), hitGaz b = some x → x ≠ []
  | Block.table _, x, h => by simp [hitGaz] at h
  | Block.para t, x, h => by
      have h' : (if containsSub glasnikLit ((pyStrip t).map pyUpper)
          then some ((pyStrip t).map pyUpper) else none) = some x := h
      by_cases hm : containsSub glasnikLit ((pyStrip t).map pyUpper)
      · rw [if_pos hm] at h'
        obtain rfl : (pyStrip t).map pyUpper = x := by simpa using h'
        intro hx
        rw [hx] at hm
        exact absurd hm (by decide)
      · rw [if_neg hm] at h'
        simp at h'

/-- The last hit inherits non-emptiness from the per-block hits. -/
theorem lastHit_ne_nil (f : Block → Option Str)
    (hf : ∀ (b : Block) (y : Str), f b = some y → y ≠ []) :
    ∀ (bs : List Block) (x : Str), lastHit f bs = some x → x ≠ []
  | [], x, h => by simp [lastHit] at h
  | b :: bs, x, h => by
      rw [lastHit_cons] at h
      cases hl : lastHit f bs with
      | some r =>
          rw [hl] at h
          obtain rfl : r = x := by simpa using h
          exact lastHit_ne_nil f hf bs _ hl
      | none =>
          rw [hl] at h
          exact hf b x h

/-- C6 (amended): extract_amending_ref composes its bracketed
upper-cased citation from the last header-like paragraph, the last
paragraph naming a statute, and the last paragraph containing the
gazette marker; when any of the three is absent it returns the one
fixed literal citation string. -/
theorem C6_amending_ref_last (blocks : List Block) :
    extract_amending_ref blocks =
      match lastHit hitArt blocks, lastHit hitLaw blocks, lastHit hitGaz blocks with
      | some a, some l, some g => brack a l g
      | _, _, _ => fallbackRef := by
  unfold extract_amending_ref
  rw [earLoop_last blocks [] [] []]
  cases ha : lastHit hitArt blocks with
  | none =>
      cases hl : lastHit hitLaw blocks <;> cases hg : lastHit hitGaz blocks <;>
        exact if_neg (by simp)
  | some a =>
      cases hl : lastHit hitLaw blocks with
      | none =>
          cases hg : lastHit hitGaz blocks <;> exact if_neg (by simp)
      | some l =>
          cases hg : lastHit hitGaz blocks with
          | none => exact if_neg (by simp)
          | some g =>
              exact if_pos ⟨lastHit_ne_nil hitArt hitArt_ne_nil blocks a ha,
                lastHit_ne_nil hitLaw hitLaw_ne_nil blocks l hl,
                lastHit_ne_nil hitGaz hitGaz_ne_nil blocks g hg⟩

/-- C6 counterexample: with two candidates for each component, the code
composes the citation from the last ones (ČLAN 2, ZAKON O B, SL.
GLASNIK RS 2), not from the first ones as the claim states. -/
theorem C6_first_counterexample :
    extract_amending_ref exC6 = ( "[ČLAN 2 ZAKON O B SL. GLASNIK RS 2]".toList) ∧
      extract_amending_ref exC6 ≠ ( "[ČLAN 1 ZAKON O A SL. GLASNIK RS 1]".toList) := by
  constructor
  · decide
  · decide

/-- C7: the copier never aliases: deep_copy_paragraph writes only the
target paragraph object — the source paragraph and every other
paragraph keep their exact prior contents and no table changes — and
deep_copy_table allocates only a fresh table object, leaving every
paragraph and every previously existing table unchanged.  Hence
mutating the output document later cannot affect the source document. -/
theorem C7_copier_frame (σ : DocState) (src tgt s : Nat) (c : Option (Nat × Nat × Nat))
    (hne : src ≠ tgt) :
    (copyParagraphH src tgt σ).paras src = σ.paras src
      ∧ (∀ k, k ≠ tgt → (copyParagraphH src tgt σ).paras k = σ.paras k)
      ∧ (copyParagraphH src tgt σ).tables = σ.tables
      ∧ (∀ k, (deep_copy_tableH s c σ).paras k = σ.paras k)
      ∧ (∀ k, k < σ.nextId → (deep_copy_tableH s c σ).tables k = σ.tables k)
      ∧ σ.nextId ≤ (deep_copy_tableH s c σ).nextId := by
  refine ⟨?_, ?_, ?_, ?_, ?_, ?_⟩
  · unfold copyParagraphH
    cases h1 : σ.paras src <;> cases h2 : σ.paras tgt <;> simp [h1, h2, hne]
  · intro k hk
    unfold copyParagraphH
    cases h1 : σ.paras src <;> cases h2 : σ.paras tgt <;> simp [h1, h2, hk]
  · unfold copyParagraphH
    cases h1 : σ.paras src <;> cases h2 : σ.paras tgt <;> rfl
  · intro k
    unfold deep_copy_tableH
    cases h1 : σ.tables s <;> rfl
  · intro k hk
    unfold deep_copy_tableH
    cases h1 : σ.tables s <;> simp [h1, Nat.ne_of_lt hk]
  · unfold deep_copy_tableH
    cases h1 : σ.tables s <;> simp [h1]

/-- C7 witness. -/
theorem C7_copier_frame_witness :
    (1 : Nat) ≠ 0 ∧
      ((copyParagraphH 1 0 docState0).paras 1 = docState0.paras 1
        ∧ (∀ k, k ≠ 0 → (copyParagraphH 1 0 docState0).paras k = docState0.paras k)
        ∧ (copyParagraphH 1 0 docState0).tables = docState0.tables
        ∧ (∀ k, (deep_copy_tableH 0 none docState0).paras k = docState0.paras k)
        ∧ (∀ k, k < docState0.nextId →
            (deep_copy_tableH 0 none docState0).tables k = docState0.tables k)
        ∧ docState0.nextId ≤ (deep_copy_tableH 0 none docState0).nextId) :=
  ⟨by decide, C7_copier_frame docState0 1 0 0 none (by decide)⟩

/-- C9: the diff key projections of process_part_b — the old side maps a
paragraph to its stripped text, the new side maps a paragraph to its
stripped text with every modification marker removed, and both sides
map every table to the fixed sentinel, so a marker-only difference does
not register and tables compare only by position and presence. -/
theorem C9_diff_keys :
    (∀ bs : List Block, origTexts bs = bs.map keyOldSpec)
      ∧ (∀ bs : List Block, newTexts bs = bs.map keyNewSpec)
      ∧ (∀ t : Str, keyOldSpec (Block.para t) = pyStrip t)
      ∧ (∀ t : Str, keyNewSpec (Block.para t) = removeStars (pyStrip t))
      ∧ (∀ cells, keyOldSpec (Block.table cells) = ( "TABLE".toList)
          ∧ keyNewSpec (Block.table cells) = ( "TABLE".toList))
      ∧ (∀ tOld tNew : Str, removeStars (pyStrip tNew) = pyStrip tOld →
          keyNewSpec (Block.para tNew) = keyOldSpec (Block.para tOld)) := by
  refine ⟨?_, ?_, ?_, ?_, ?_, ?_⟩
  · intro bs
    induction bs with
    | nil => rfl
    | cons b bs ih =>
        cases b <;> simp [origTexts, keyOldSpec, ih]
  · intro bs
    induction bs with
    | nil => rfl
    | cons b bs ih =>
        cases b <;> simp [newTexts, keyNewSpec, ih]
  · intro t
    rfl
  · intro t
    rfl
  · intro cells
    exact ⟨rfl, rfl⟩
  · intro tOld tNew h
    show removeStars (pyStrip tNew) = pyStrip tOld
    exact h

/-- C9 witness: a header that only gained the marker keys equal on the
two sides. -/
theorem C9_diff_keys_witness :
    removeStars (pyStrip ( "Član 9*".toList)) = pyStrip ( "Član 9".toList) ∧
      keyNewSpec (Block.para ( "Član 9*".toList)) = keyOldSpec (Block.para ( "Član 9".toList)) ∧
      keyOldSpec (Block.para ( "Član 9".toList)) = ( "Član 9".toList) :=
  ⟨by decide,
   C9_diff_keys.2.2.2.2.2 ( "Član 9".toList) ( "Član 9*".toList) (by decide),
   by decide⟩

/-- Flag positions shift by one under an incremented start index. -/
theorem flagPosGo_shift :
    ∀ (bs : List Block) (i : Nat),
      flagPosGo (i + 1) bs = (flagPosGo i bs).map (fun p => p + 1)
  | [], _ => rfl
  | b :: bs, i => by
      unfold flagPosGo
      rw [flagPosGo_shift bs (i + 1)]
      by_cases hb : flaggedBlock b <;> simp [hb]

/-- Folding insertions at shifted positions leaves the head block in
place and recurses on the tail. -/
theorem foldl_insertIdx_shift (ref b : Block) :
    ∀ (qs : List Nat) (l : List Block),
      (qs.map (fun p => p + 1)).foldl (fun acc pos => List.insertIdx pos ref acc) (b :: l) =
        b :: qs.foldl (fun acc pos => List.insertIdx pos ref acc) l
  | [], _ => rfl
  | q :: qs, l => by
      simp only [List.map_cons, List.foldl_cons, List.insertIdx_succ_cons]
      exact foldl_insertIdx_shift ref b qs (List.insertIdx q ref l)

/-- C10: collecting all flagged-header positions first and splicing one
reference paragraph per flagged header in descending position order
produces exactly the interleaving in which each reference paragraph
immediately precedes its respective header and no block moves relative
to its neighbours; in particular, with three flagged headers all three
references sit immediately before their unshifted headers. -/
theorem C10_annotator_splice :
    (∀ (blocks : List Block) (ref : Block), spliceRefs blocks ref = interleaveSpec ref blocks)
      ∧ spliceRefs exC10 exC10ref =
          [ exC10ref, Block.para ( "Član 1*".toList), Block.para ( "telo a".toList),
            exC10ref, Block.para ( "Član 2*".toList), Block.para ( "telo b".toList),
            exC10ref, Block.para ( "Član 3*".toList) ] := by
  constructor
  · intro blocks ref
    induction blocks with
    | nil => rfl
    | cons b bs ih =>
        unfold spliceRefs insertPositions at ih ⊢
        unfold interleaveSpec
        show ((if flaggedBlock b then [0] else []) ++ flagPosGo 1 bs).reverse.foldl
            (fun acc pos => List.insertIdx pos ref acc) (b :: bs) = _
        rw [show (1 : Nat) = 0 + 1 from rfl, flagPosGo_shift bs 0]
        rw [List.reverse_append, List.foldl_append, ← List.map_reverse,
          foldl_insertIdx_shift ref b (flagPosGo 0 bs).reverse bs]
        by_cases hb : flaggedBlock b
        · rw [if_pos hb, if_pos hb]
          show List.insertIdx 0 ref (b :: _) = _
          rw [List.insertIdx_zero, ih]
          rfl
        · rw [if_neg hb, if_neg hb]
          show (b :: _) = _
          rw [ih]
          rfl
  · decide
